import Mathlib

/-!
Verification of the aliasctl alias-store, syntax-codec and managed-block
subsystem.  Go strings are embedded as `List Char`; the Go standard-library
string operations used by the source (strings.HasPrefix, strings.SplitN with
limit 2, strings.Contains, strings.TrimSpace, strings.Trim, strings.Fields,
bufio.ScanLines) are modelled below, and the repository functions
(ApplyAliases, ImportAliasesFromShell, AddAlias, RemoveAlias, LoadAliases,
SaveAliases, the ExportAliases translation step) are translated from
src/pkg/aliasctl/alias_operations.go and src/unnamed/part_002 /
src/unnamed/part_011.
-/

/-- Character constants written via code points so that quote and brace
characters never appear as literals. -/
def singleQuote : Char := Char.ofNat 39

/-- Double-quote character, code point 34. -/
def doubleQuote : Char := Char.ofNat 34

/-- Opening curly brace, code point 123. -/
def openBrace : Char := Char.ofNat 123

/-- Closing curly brace, code point 125. -/
def closeBrace : Char := Char.ofNat 125

/-- Go unicode.IsSpace: the Unicode White_Space code points, which
strings.TrimSpace and strings.Fields split and trim on.  These are tab,
newline, vertical tab, form feed, carriage return, space, NEL, NBSP, Ogham
space mark, the en-quad through hair-space range, the line and paragraph
separators, narrow no-break space, medium mathematical space and ideographic
space. -/
def goIsSpace (c : Char) : Bool :=
  c == ' ' || c == '\t' || c == '\n' || c == '\x0b' || c == '\x0c' ||
  c == '\r' || c == '\u0085' || c == '\u00A0' || c == '\u1680' ||
  c == '\u2000' || c == '\u2001' || c == '\u2002' || c == '\u2003' ||
  c == '\u2004' || c == '\u2005' || c == '\u2006' || c == '\u2007' ||
  c == '\u2008' || c == '\u2009' || c == '\u200A' || c == '\u2028' ||
  c == '\u2029' || c == '\u202F' || c == '\u205F' || c == '\u3000'

/-- Go strings.HasPrefix on char lists: first argument is the prefix to test,
second the string. -/
def startsWith : List Char → List Char → Bool
  | [], _ => true
  | _ :: _, [] => false
  | p :: ps, c :: cs => p == c && startsWith ps cs

/-- Go strings.HasSuffix, via reversal. -/
def endsWith (suf s : List Char) : Bool :=
  startsWith suf.reverse s.reverse

/-- Go strings.TrimPrefix. -/
def dropPfx (pre s : List Char) : List Char :=
  if startsWith pre s then s.drop pre.length else s

/-- Go strings.TrimSuffix, via reversal. -/
def dropSfx (suf s : List Char) : List Char :=
  if endsWith suf s then (s.reverse.drop suf.length).reverse else s

/-- Split a string at the first occurrence of a (non-empty) separator:
returns the part before the separator and the part after it, or none when the
separator does not occur.  This is the common core of Go strings.Contains and
strings.SplitN with limit 2. -/
def splitFirst (sep : List Char) : List Char → Option (List Char × List Char)
  | [] => if startsWith sep [] then some ([], []) else none
  | c :: cs =>
    if startsWith sep (c :: cs) then some ([], (c :: cs).drop sep.length)
    else
      match splitFirst sep cs with
      | some pq => some (c :: pq.1, pq.2)
      | none => none

/-- Go strings.Contains. -/
def containsSub (sep s : List Char) : Bool :=
  (splitFirst sep s).isSome

/-- Go strings.SplitN with limit 2: the first component is parts[0] and the
second is parts[1] when it exists (len(parts) == 2). -/
def splitN2 (sep s : List Char) : List Char × Option (List Char) :=
  match splitFirst sep s with
  | some pq => (pq.1, some pq.2)
  | none => (s, none)

/-- Left trim by a character predicate. -/
def trimLeftWhile (p : Char → Bool) (s : List Char) : List Char :=
  s.dropWhile p

/-- Right trim by a character predicate, via reversal. -/
def trimRightWhile (p : Char → Bool) (s : List Char) : List Char :=
  (s.reverse.dropWhile p).reverse

/-- Go strings.TrimSpace. -/
def goTrimSpace (s : List Char) : List Char :=
  trimRightWhile goIsSpace (trimLeftWhile goIsSpace s)

/-- Membership in the two-character cutset used by the importers,
strings.Trim(s, the two quote characters). -/
def isQuoteChar (c : Char) : Bool :=
  c == singleQuote || c == doubleQuote

/-- Go strings.Trim with the quote cutset. -/
def goTrimQuotes (s : List Char) : List Char :=
  trimRightWhile isQuoteChar (trimLeftWhile isQuoteChar s)

/-- Accumulator loop for Go strings.Fields: splits on whitespace runs and
drops empty fields. -/
def goFieldsAux : List Char → List Char → List (List Char)
  | [], acc => if acc.isEmpty then [] else [acc.reverse]
  | c :: cs, acc =>
    if goIsSpace c then
      if acc.isEmpty then goFieldsAux cs [] else acc.reverse :: goFieldsAux cs []
    else goFieldsAux cs (c :: acc)

/-- Go strings.Fields. -/
def goFields (s : List Char) : List (List Char) :=
  goFieldsAux s []

/-- Split on newline characters, keeping a (possibly empty) final token. -/
def splitNl : List Char → List Char → List (List Char)
  | [], acc => [acc.reverse]
  | c :: cs, acc =>
    if c == '\n' then acc.reverse :: splitNl cs [] else splitNl cs (c :: acc)

/-- Drop one trailing carriage return, as bufio.ScanLines does per line. -/
def dropCR (l : List Char) : List Char :=
  dropSfx ['\r'] l

/-- The sequence of lines a bufio.Scanner with ScanLines yields on the given
content: newline-separated tokens, without a trailing empty token, each with
one trailing carriage return removed. -/
def goLines (s : List Char) : List (List Char) :=
  let toks := splitNl s []
  (if toks.getLast? == some [] then toks.dropLast else toks).map dropCR

/-- The shell dialects supported by the source (ShellType constants in
src/unnamed/part_011). -/
inductive ShellType where
  | bash
  | zsh
  | fish
  | ksh
  | powershell
  | powershellCore
  | cmd
deriving DecidableEq

/-- The canonical external name of each shell (the ShellType string values
"bash", "zsh", "fish", "ksh", "powershell", "pwsh", "cmd"). -/
def shellName : ShellType → List Char
  | .bash => "bash".toList
  | .zsh => "zsh".toList
  | .fish => "fish".toList
  | .ksh => "ksh".toList
  | .powershell => "powershell".toList
  | .powershellCore => "pwsh".toList
  | .cmd => "cmd".toList

/-- The AliasCommands struct of src/unnamed/part_011: one command string per
dialect, empty meaning no definition. -/
structure AliasCommands where
  Bash : List Char
  Zsh : List Char
  Fish : List Char
  Ksh : List Char
  PowerShell : List Char
  PowerShellCore : List Char
  Cmd : List Char
deriving DecidableEq

/-- The zero value of AliasCommands, as produced by reading a Go map at an
absent key. -/
def emptyAliasCommands : AliasCommands :=
  ⟨[], [], [], [], [], [], []⟩

/-- The per-shell field read used throughout the source (the switch on
am.Shell in ApplyAliases, ListAliases and ConvertAlias). -/
def getCommand : ShellType → AliasCommands → List Char
  | .bash, ac => ac.Bash
  | .zsh, ac => ac.Zsh
  | .fish, ac => ac.Fish
  | .ksh, ac => ac.Ksh
  | .powershell, ac => ac.PowerShell
  | .powershellCore, ac => ac.PowerShellCore
  | .cmd, ac => ac.Cmd

/-- The per-shell field write used by AddAlias and the importers. -/
def setCommand : ShellType → List Char → AliasCommands → AliasCommands
  | .bash, c, ac => ⟨c, ac.Zsh, ac.Fish, ac.Ksh, ac.PowerShell, ac.PowerShellCore, ac.Cmd⟩
  | .zsh, c, ac => ⟨ac.Bash, c, ac.Fish, ac.Ksh, ac.PowerShell, ac.PowerShellCore, ac.Cmd⟩
  | .fish, c, ac => ⟨ac.Bash, ac.Zsh, c, ac.Ksh, ac.PowerShell, ac.PowerShellCore, ac.Cmd⟩
  | .ksh, c, ac => ⟨ac.Bash, ac.Zsh, ac.Fish, c, ac.PowerShell, ac.PowerShellCore, ac.Cmd⟩
  | .powershell, c, ac => ⟨ac.Bash, ac.Zsh, ac.Fish, ac.Ksh, c, ac.PowerShellCore, ac.Cmd⟩
  | .powershellCore, c, ac => ⟨ac.Bash, ac.Zsh, ac.Fish, ac.Ksh, ac.PowerShell, c, ac.Cmd⟩
  | .cmd, c, ac => ⟨ac.Bash, ac.Zsh, ac.Fish, ac.Ksh, ac.PowerShell, ac.PowerShellCore, c⟩

/-- The in-memory alias store, am.Aliases: a finite map from alias name to
AliasCommands.  Go map iteration order is unspecified; the embedding fixes
the insertion order of an association list. -/
abbrev Store := List (List Char × AliasCommands)

/-- Go map read am.Aliases[name]: the stored record, or the zero value when
the name is absent. -/
def lookupAC (st : Store) (name : List Char) : AliasCommands :=
  match st.find? (fun e => e.1 == name) with
  | some e => e.2
  | none => emptyAliasCommands

/-- Go map write am.Aliases[name] = ac: replace in place when present,
append otherwise. -/
def upsertAC : Store → List Char → AliasCommands → Store
  | [], name, ac => [(name, ac)]
  | e :: rest, name, ac =>
    if e.1 == name then (name, ac) :: rest else e :: upsertAC rest name ac

/-- AddAlias of src/unnamed/part_002: reads the record for the name (zero
value when absent), sets the current shell's command and writes it back. -/
def AddAlias (sh : ShellType) (st : Store) (name command : List Char) : Store :=
  upsertAC st name (setCommand sh command (lookupAC st name))

/-- RemoveAlias of src/unnamed/part_002: deletes the whole record and reports
whether it existed. -/
def RemoveAlias (st : Store) (name : List Char) : Store × Bool :=
  if st.any (fun e => e.1 == name) then
    (st.filter (fun e => !(e.1 == name)), true)
  else (st, false)

/-- Start marker of the managed block (literal from alias_operations.go). -/
def startMarker : List Char := "# Aliases managed by AliasCtl".toList

/-- End marker of the managed block (literal from alias_operations.go). -/
def endMarker : List Char := "# End of aliases managed by AliasCtl".toList

/-- One newline character. -/
def nl : List Char := ['\n']

/-- The wrapped/function rendering of an alias for the dialects that have
one: a fish function block, or a PowerShell function line (both PowerShell
variants use the same shape). -/
def wrappedFunctionForm (sh : ShellType) (name command : List Char) : List Char :=
  match sh with
  | .fish =>
    "function ".toList ++ name ++ nl ++ "    ".toList ++ command ++ nl ++ "end".toList ++ nl
  | _ =>
    "function ".toList ++ name ++ [' ', openBrace, ' '] ++ command ++ [' ', closeBrace] ++ nl

/-- The simple-alias rendering for the dialects that also have a wrapped
form: fish single-quoted alias, or a PowerShell Set-Alias line. -/
def simpleAliasForm (sh : ShellType) (name command : List Char) : List Char :=
  match sh with
  | .fish =>
    "alias ".toList ++ name ++ [' ', singleQuote] ++ command ++ [singleQuote] ++ nl
  | _ =>
    "Set-Alias ".toList ++ name ++ [' '] ++ command ++ nl

/-- The per-alias rendering switch of ApplyAliases (alias_operations.go
lines 64-83): PowerShell and fish choose the wrapped form exactly when the
command contains a space; cmd uses doskey; the remaining dialects use the
POSIX single-quoted alias line. -/
def renderAlias (sh : ShellType) (name command : List Char) : List Char :=
  match sh with
  | .powershell | .powershellCore =>
    if command.contains ' ' then wrappedFunctionForm sh name command
    else simpleAliasForm sh name command
  | .cmd => "doskey ".toList ++ name ++ ['='] ++ command ++ nl
  | .fish =>
    if command.contains ' ' then wrappedFunctionForm .fish name command
    else simpleAliasForm .fish name command
  | _ =>
    "alias ".toList ++ name ++ ['=', singleQuote] ++ command ++ [singleQuote] ++ nl

/-- The alias-rendering loop of ApplyAliases: every record with a non-empty
command for the active shell contributes one rendered definition, in store
order (the Go source iterates a map in unspecified order; the embedding uses
the association-list order). -/
def renderBody (sh : ShellType) : Store → List Char
  | [] => []
  | (name, cmds) :: rest =>
    (if getCommand sh cmds == [] then [] else renderAlias sh name (getCommand sh cmds)) ++
    renderBody sh rest

/-- ApplyAliases (alias_operations.go lines 12-101), as the function from the
current file state to the bytes written back.  A missing file (os.Stat
failure) leaves existingContent empty.  The three branches mirror the source:
no managed-block marker and non-empty content appends a separating blank line
and the start marker after the existing bytes; an existing start marker keeps
only the bytes before its first occurrence; otherwise the file starts with
the marker.  After the rendered body and the end-marker line, the bytes after
the first occurrence of the end marker in the old content are re-appended
when the old content had both markers.  (The source's inner conditional on
lines 38-40 has an empty body and is a no-op.) -/
def ApplyAliases (sh : ShellType) (st : Store) (file : Option (List Char)) : List Char :=
  let existingContent := match file with | none => [] | some c => c
  let existingAliasSection := containsSub startMarker existingContent
  let head :=
    if !existingAliasSection && !(existingContent == []) then
      existingContent ++ (if endsWith nl existingContent then [] else nl) ++
        nl ++ startMarker ++ nl
    else if existingAliasSection then
      (splitN2 startMarker existingContent).1 ++ startMarker ++ nl
    else startMarker ++ nl
  let tail :=
    if existingAliasSection && containsSub endMarker existingContent then
      ((splitN2 endMarker existingContent).2).getD []
    else []
  head ++ renderBody sh st ++ endMarker ++ nl ++ tail

/-- The PowerShell/PowerShellCore line parse of ImportAliasesFromShell
(alias_operations.go lines 119-150): a function line yields the name before
the first space of line[9:] and the text after the first opening brace,
space-trimmed, with one trailing closing brace removed and trimmed again; a
Set-Alias line yields the first two fields of line[10:]. -/
def parsePowerShellLine (line : List Char) : Option (List Char × List Char) :=
  if startsWith "function ".toList line then
    match (splitN2 [' '] (line.drop 9)).2 with
    | some rest =>
      if containsSub [openBrace] rest then
        match (splitN2 [openBrace] rest).2 with
        | some afterBrace =>
          some ((splitN2 [' '] (line.drop 9)).1,
            goTrimSpace (dropSfx [closeBrace] (goTrimSpace afterBrace)))
        | none => none
      else none
    | none => none
  else if startsWith "Set-Alias ".toList line then
    match goFields (line.drop 10) with
    | a :: b :: _ => some (a, b)
    | _ => none
  else none

/-- The cmd (doskey) line parse of ImportAliasesFromShell (lines 151-159). -/
def parseCmdLine (line : List Char) : Option (List Char × List Char) :=
  if startsWith "doskey ".toList line then
    match (splitN2 ['='] (line.drop 7)).2 with
    | some b => some ((splitN2 ['='] (line.drop 7)).1, b)
    | none => none
  else none

/-- The fish simple-alias line parse of ImportAliasesFromShell (lines
161-170): after the alias keyword, split at the first space and strip
surrounding quote characters from the command. -/
def parseFishAliasLine (line : List Char) : Option (List Char × List Char) :=
  if startsWith "alias ".toList line then
    match (splitN2 [' '] (dropPfx "alias ".toList line)).2 with
    | some b => some ((splitN2 [' '] (dropPfx "alias ".toList line)).1, goTrimQuotes b)
    | none => none
  else none

/-- The fish function-head recognition (lines 171-175): the name is the text
before the first space of line[9:], with one trailing semicolon removed;
len(parts) >= 1 always holds. -/
def parseFishFunctionHead (line : List Char) : Option (List Char) :=
  if startsWith "function ".toList line then
    some (dropSfx [';'] (splitN2 [' '] (line.drop 9)).1)
  else none

/-- The fish function-body handling (lines 176-181): the next line is
space-trimmed and stored unless it begins with the end keyword. -/
def fishBodyCommand (body : List Char) : Option (List Char) :=
  let command := goTrimSpace body
  if startsWith "end".toList command then none else some command

/-- The POSIX (bash/zsh/ksh) line parse of ImportAliasesFromShell (lines
186-205): after the alias keyword, split at the first equals sign and strip
surrounding quote characters. -/
def parsePosixLine (line : List Char) : Option (List Char × List Char) :=
  if startsWith "alias ".toList line then
    match (splitN2 ['='] (dropPfx "alias ".toList line)).2 with
    | some b => some ((splitN2 ['='] (dropPfx "alias ".toList line)).1, goTrimQuotes b)
    | none => none
  else none

/-- The scanner loop of ImportAliasesFromShell over the file's lines.  Every
successful parse performs exactly the AddAlias store update for the active
shell.  In the fish case a function head consumes the following line as the
body (when no line follows, the loop ends with no update, as scanner.Scan
fails). -/
def importLines (sh : ShellType) : Store → List (List Char) → Store
  | st, [] => st
  | st, line :: rest =>
    match sh with
    | .powershell | .powershellCore =>
      importLines sh
        (match parsePowerShellLine line with
         | some nc => AddAlias sh st nc.1 nc.2
         | none => st) rest
    | .cmd =>
      importLines .cmd
        (match parseCmdLine line with
         | some nc => AddAlias .cmd st nc.1 nc.2
         | none => st) rest
    | .fish =>
      match parseFishAliasLine line with
      | some nc => importLines .fish (AddAlias .fish st nc.1 nc.2) rest
      | none =>
        match parseFishFunctionHead line with
        | some fname =>
          match rest with
          | [] => st
          | body :: rest2 =>
            match fishBodyCommand body with
            | some c => importLines .fish (AddAlias .fish st fname c) rest2
            | none => importLines .fish st rest2
        | none => importLines .fish st rest
    | _ =>
      importLines sh
        (match parsePosixLine line with
         | some nc => AddAlias sh st nc.1 nc.2
         | none => st) rest

/-- Result of reading a file, distinguishing the os.IsNotExist case the
source tests for from other read failures. -/
inductive ReadResult where
  | content (data : List Char)
  | notExist
  | failure
deriving DecidableEq

/-- ImportAliasesFromShell (alias_operations.go lines 104-210) as a function
of the shell-config read result: a missing file returns success immediately
with the store untouched (before any parsing and before the terminal
SaveAliases); any other open failure is an error; otherwise the scanner loop
runs over the file's lines. -/
def ImportAliasesFromShell (sh : ShellType) (st : Store) (r : ReadResult) :
    Except Unit Store :=
  match r with
  | .notExist => Except.ok st
  | .failure => Except.error ()
  | .content data => Except.ok (importLines sh st (goLines data))

/-- LoadAliases (src/unnamed/part_002 lines 14-31) as a function of the
store-file read result: a missing file initialises an empty store and
succeeds; any other read failure is an error; otherwise the TOML/JSON
decoding (external, abstracted as parseStore) runs on the bytes. -/
def LoadAliases (r : ReadResult) (parseStore : List Char → Except Unit Store) :
    Except Unit Store :=
  match r with
  | .notExist => Except.ok []
  | .failure => Except.error ()
  | .content data => parseStore data

/-- SaveAliases (src/unnamed/part_002 lines 37-56) TOML- or JSON-encodes
am.Aliases in full: the records written to the store file are exactly the
store's entries, with no filtering. -/
def persistedRecords (st : Store) : Store := st

/-- The per-alias translation step of ExportAliases (alias_operations.go
lines 236-242): the AI conversion capability is invoked only when an AI
provider is configured and the current shell's name differs from the target
shell string; a successful conversion replaces the command and a failed one
keeps it.  The Boolean result records whether the capability was invoked. -/
def exportTranslateCommand (aiConfigured : Bool) (shell targetShell : List Char)
    (convert : List Char → Option (List Char)) (command : List Char) :
    List Char × Bool :=
  if aiConfigured = true ∧ shell ≠ targetShell then
    match convert command with
    | some converted => (converted, true)
    | none => (command, true)
  else (command, false)

/-- A record has a non-empty command for at least one dialect. -/
def hasNonEmptyCommand (ac : AliasCommands) : Bool :=
  !(ac.Bash == []) || !(ac.Zsh == []) || !(ac.Fish == []) || !(ac.Ksh == []) ||
  !(ac.PowerShell == []) || !(ac.PowerShellCore == []) || !(ac.Cmd == [])

/-- Every record of the store has a non-empty command for some dialect (the
spec's all-empty-records-are-absent invariant). -/
def storeInv (st : Store) : Bool :=
  st.all (fun e => hasNonEmptyCommand e.2)

/-- The store-mutating operations of the spec's Alias Store component:
AddAlias, RemoveAlias and the import scanner loop. -/
inductive StoreOp where
  | add (sh : ShellType) (name command : List Char)
  | remove (name : List Char)
  | importFile (sh : ShellType) (lines : List (List Char))

/-- Run one store operation. -/
def runOp (st : Store) : StoreOp → Store
  | .add sh n c => AddAlias sh st n c
  | .remove n => (RemoveAlias st n).1
  | .importFile sh lines => importLines sh st lines

/-- Run a sequence of store operations. -/
def runOps (st : Store) : List StoreOp → Store
  | [] => st
  | op :: ops => runOps (runOp st op) ops

/-- Every command the import scanner loop would store from these lines is
non-empty.  The recursion mirrors importLines, with the list shapes split
explicitly: a fish function head consumes the following line as the body. -/
def importLinesOK (sh : ShellType) : List (List Char) → Bool
  | [] => true
  | [line] =>
    match sh with
    | .powershell | .powershellCore =>
      match parsePowerShellLine line with
      | some nc => !(nc.2 == [])
      | none => true
    | .cmd =>
      match parseCmdLine line with
      | some nc => !(nc.2 == [])
      | none => true
    | .fish =>
      match parseFishAliasLine line with
      | some nc => !(nc.2 == [])
      | none => true
    | _ =>
      match parsePosixLine line with
      | some nc => !(nc.2 == [])
      | none => true
  | line :: body :: rest2 =>
    match sh with
    | .powershell | .powershellCore =>
      (match parsePowerShellLine line with
       | some nc => !(nc.2 == [])
       | none => true) && importLinesOK sh (body :: rest2)
    | .cmd =>
      (match parseCmdLine line with
       | some nc => !(nc.2 == [])
       | none => true) && importLinesOK .cmd (body :: rest2)
    | .fish =>
      match parseFishAliasLine line with
      | some nc => !(nc.2 == []) && importLinesOK .fish (body :: rest2)
      | none =>
        match parseFishFunctionHead line with
        | some _ =>
          (match fishBodyCommand body with
           | some c => !(c == [])
           | none => true) && importLinesOK .fish rest2
        | none => importLinesOK .fish (body :: rest2)
    | _ =>
      (match parsePosixLine line with
       | some nc => !(nc.2 == [])
       | none => true) && importLinesOK sh (body :: rest2)

/-- An operation supplies no empty command. -/
def opOK : StoreOp → Bool
  | .add _ _ c => !(c == [])
  | .remove _ => true
  | .importFile sh lines => importLinesOK sh lines

/-- Every operation of the sequence supplies no empty command. -/
def opsOK (ops : List StoreOp) : Bool :=
  ops.all opOK

/-! Basic lemmas about the embedded Go string operations. -/

theorem startsWith_append (k s : List Char) : startsWith k (k ++ s) = true := by
  induction k with
  | nil => rfl
  | cons c cs ih => simp [startsWith, ih]

theorem startsWith_self (k : List Char) : startsWith k k = true := by
  have h := startsWith_append k []
  simpa using h

theorem eq_append_drop_of_startsWith (k : List Char) :
    ∀ s : List Char, startsWith k s = true → s = k ++ s.drop k.length := by
  induction k with
  | nil => intro s _; simp
  | cons c cs ih =>
    intro s h
    cases s with
    | nil => simp [startsWith] at h
    | cons x xs =>
      simp only [startsWith, Bool.and_eq_true, beq_iff_eq] at h
      obtain ⟨rfl, h2⟩ := h
      have h3 := ih xs h2
      simp only [List.length_cons, List.drop_succ_cons, List.cons_append]
      exact congrArg (c :: ·) h3

theorem splitFirst_sound (sep : List Char) :
    ∀ (s p q : List Char), splitFirst sep s = some (p, q) → s = p ++ sep ++ q := by
  intro s
  induction s with
  | nil =>
    intro p q h
    simp only [splitFirst] at h
    by_cases hp : startsWith sep [] = true
    · cases sep with
      | nil => simp [hp] at h; obtain ⟨rfl, rfl⟩ := h; simp
      | cons c cs => simp [startsWith] at hp
    · simp [hp] at h
  | cons c cs ih =>
    intro p q h
    simp only [splitFirst] at h
    by_cases hp : startsWith sep (c :: cs) = true
    · rw [if_pos hp] at h
      obtain ⟨rfl, rfl⟩ := by simpa using h
      simpa using eq_append_drop_of_startsWith sep (c :: cs) hp
    · rw [if_neg hp] at h
      cases hsf : splitFirst sep cs with
      | none => rw [hsf] at h; simp at h
      | some pq =>
        rw [hsf] at h
        obtain ⟨p1, q1⟩ := pq
        simp only [Option.some.injEq, Prod.mk.injEq] at h
        obtain ⟨rfl, rfl⟩ := h
        have := ih p1 q1 hsf
        simp [this]

theorem startsWith_single_cons (ch x : Char) (xs : List Char) :
    startsWith [ch] (x :: xs) = (ch == x) := by
  simp [startsWith]

theorem splitFirst_char_append (ch : Char) (a b : List Char)
    (h : a.contains ch = false) : splitFirst [ch] (a ++ ch :: b) = some (a, b) := by
  induction a with
  | nil =>
    simp only [List.nil_append, splitFirst, startsWith_single_cons]
    simp
  | cons x a2 ih =>
    simp only [List.contains_cons, Bool.or_eq_false_iff, beq_eq_false_iff_ne] at h
    obtain ⟨h1, h2⟩ := h
    simp only [List.cons_append, splitFirst, startsWith_single_cons]
    rw [if_neg (by simpa using h1)]
    simp only [List.append_eq]
    rw [ih h2]

theorem splitFirst_char_none (ch : Char) (a : List Char)
    (h : a.contains ch = false) : splitFirst [ch] a = none := by
  induction a with
  | nil => rfl
  | cons x a2 ih =>
    simp only [List.contains_cons, Bool.or_eq_false_iff, beq_eq_false_iff_ne] at h
    obtain ⟨h1, h2⟩ := h
    simp only [splitFirst, startsWith_single_cons]
    rw [if_neg (by simpa using h1), ih h2]

theorem dropWhile_of_head_not (p : Char → Bool) (c : Char) (s : List Char)
    (h : p c = false) : (c :: s).dropWhile p = c :: s := by
  simp [List.dropWhile, h]

theorem dropWhile_append_of_all (p : Char → Bool) (a s : List Char)
    (h : ∀ c ∈ a, p c = true) : (a ++ s).dropWhile p = s.dropWhile p := by
  induction a with
  | nil => simp
  | cons c a2 ih =>
    have hc : p c = true := h c (by simp)
    simp only [List.cons_append, List.dropWhile_cons, hc, if_true]
    exact ih (fun x hx => h x (by simp [hx]))

theorem dropWhile_of_all_not (p : Char → Bool) (s : List Char)
    (h : ∀ c ∈ s, p c = false) : s.dropWhile p = s := by
  cases s with
  | nil => rfl
  | cons c s2 => exact dropWhile_of_head_not p c s2 (h c (by simp))

/-- Head character (when any) fails the whitespace test; used to state that a
command has no leading or, applied to the reversal, trailing whitespace. -/
def headNotSpace : List Char → Bool
  | [] => true
  | c :: _ => !goIsSpace c

theorem trimLeftWhile_space_self (s : List Char) (h : headNotSpace s = true) :
    trimLeftWhile goIsSpace s = s := by
  cases s with
  | nil => rfl
  | cons c t =>
    simp only [headNotSpace, Bool.not_eq_true'] at h
    exact dropWhile_of_head_not goIsSpace c t h

theorem trimRightWhile_space_self (s : List Char) (h : headNotSpace s.reverse = true) :
    trimRightWhile goIsSpace s = s := by
  unfold trimRightWhile
  cases hr : s.reverse with
  | nil => simpa using congrArg List.reverse hr
  | cons c t =>
    rw [hr] at h
    simp only [headNotSpace, Bool.not_eq_true'] at h
    rw [dropWhile_of_head_not goIsSpace c t h, ← hr, List.reverse_reverse]

theorem goTrimSpace_self (s : List Char) (h1 : headNotSpace s = true)
    (h2 : headNotSpace s.reverse = true) : goTrimSpace s = s := by
  unfold goTrimSpace
  rw [trimLeftWhile_space_self s h1, trimRightWhile_space_self s h2]

theorem contains_false_of_mem (c : Char) (l : List Char)
    (h : l.contains c = false) : ∀ x ∈ l, x ≠ c := by
  intro x hx he
  subst he
  have h2 : l.contains x = true := List.elem_iff.mpr hx
  rw [h2] at h
  exact absurd h (by simp)

theorem endsWith_single_false (c : Char) (l : List Char)
    (h : ∀ x ∈ l, x ≠ c) : endsWith [c] l = false := by
  unfold endsWith
  cases hr : l.reverse with
  | nil => rfl
  | cons x t =>
    have hx : x ∈ l := by
      have : x ∈ l.reverse := by rw [hr]; simp
      simpa using this
    simp only [List.reverse_cons, List.reverse_nil, List.nil_append,
      startsWith_single_cons]
    exact beq_eq_false_iff_ne.mpr fun he => h x hx he.symm

theorem dropCR_self (l : List Char) (h : l.contains '\r' = false) :
    dropCR l = l := by
  unfold dropCR dropSfx
  rw [endsWith_single_false '\r' l (contains_false_of_mem '\r' l h)]
  simp

theorem goTrimQuotes_wrap (cmd : List Char) (hne : cmd ≠ [])
    (h1 : cmd.contains singleQuote = false) (h2 : cmd.contains doubleQuote = false) :
    goTrimQuotes (singleQuote :: (cmd ++ [singleQuote])) = cmd := by
  have hq : ∀ x ∈ cmd, isQuoteChar x = false := by
    intro x hx
    have hx1 := contains_false_of_mem singleQuote cmd h1 x hx
    have hx2 := contains_false_of_mem doubleQuote cmd h2 x hx
    simp [isQuoteChar, hx1, hx2]
  obtain ⟨c, t, rfl⟩ : ∃ c t, cmd = c :: t := by
    cases cmd with
    | nil => exact absurd rfl hne
    | cons c t => exact ⟨c, t, rfl⟩
  unfold goTrimQuotes trimLeftWhile trimRightWhile
  have hsq : isQuoteChar singleQuote = true := by simp [isQuoteChar]
  have hc : isQuoteChar c = false := hq c (by simp)
  rw [List.dropWhile_cons, if_pos hsq, List.cons_append,
    dropWhile_of_head_not isQuoteChar c (t ++ [singleQuote]) hc]
  have hrev : (c :: (t ++ [singleQuote])).reverse = singleQuote :: (c :: t).reverse := by
    simp
  rw [hrev, List.dropWhile_cons, if_pos hsq]
  cases hr : (c :: t).reverse with
  | nil => simp at hr
  | cons x xs =>
    have hx : x ∈ c :: t := by
      have hm : x ∈ (c :: t).reverse := by rw [hr]; simp
      rw [List.mem_reverse] at hm
      exact hm
    rw [dropWhile_of_head_not isQuoteChar x xs (hq x hx), ← hr, List.reverse_reverse]

theorem goFieldsAux_nonspace_append (a : List Char) (h : ∀ c ∈ a, goIsSpace c = false) :
    ∀ (s acc : List Char), goFieldsAux (a ++ s) acc = goFieldsAux s (a.reverse ++ acc) := by
  induction a with
  | nil => intro s acc; simp
  | cons c a2 ih =>
    intro s acc
    have hc : goIsSpace c = false := h c (by simp)
    simp only [List.cons_append, goFieldsAux, hc, Bool.false_eq_true, if_false,
      List.append_eq]
    rw [ih (fun x hx => h x (by simp [hx])) s (c :: acc)]
    simp

theorem goFields_pair (a b : List Char) (hane : a ≠ []) (hbne : b ≠ [])
    (ha : ∀ c ∈ a, goIsSpace c = false) (hb : ∀ c ∈ b, goIsSpace c = false) :
    goFields (a ++ ' ' :: b) = [a, b] := by
  unfold goFields
  rw [goFieldsAux_nonspace_append a ha (' ' :: b) []]
  have hsp : goIsSpace ' ' = true := by decide
  have hrne : a.reverse.isEmpty = false := by
    simp [List.isEmpty_iff]
    exact hane
  simp only [goFieldsAux, hsp, if_true, List.append_nil, hrne, Bool.false_eq_true,
    if_false, List.reverse_reverse]
  have hb2 : goFieldsAux b [] = goFieldsAux [] b.reverse := by
    have := goFieldsAux_nonspace_append b hb [] []
    simpa using this
  rw [hb2]
  have hbrne : b.reverse.isEmpty = false := by
    simp [List.isEmpty_iff]
    exact hbne
  simp [goFieldsAux, hbrne]

/-- Concatenation of lines, each terminated by a newline; render output has
this shape. -/
def joinNl : List (List Char) → List Char
  | [] => []
  | l :: rest => l ++ '\n' :: joinNl rest

theorem splitNl_line_append (x : List Char) (hx : x.contains '\n' = false) :
    ∀ (rest acc : List Char), splitNl (x ++ '\n' :: rest) acc =
      (acc.reverse ++ x) :: splitNl rest [] := by
  induction x with
  | nil =>
    intro rest acc
    simp [splitNl]
  | cons c x2 ih =>
    intro rest acc
    simp only [List.contains_cons, Bool.or_eq_false_iff, beq_eq_false_iff_ne] at hx
    obtain ⟨h1, h2⟩ := hx
    have hc : (c == '\n') = false := beq_eq_false_iff_ne.mpr fun he => h1 he.symm
    simp only [List.cons_append, splitNl, hc, Bool.false_eq_true, if_false,
      List.append_eq]
    rw [ih h2 rest (c :: acc)]
    simp

theorem splitNl_joinNl (ls : List (List Char))
    (h : ∀ l ∈ ls, l.contains '\n' = false) :
    splitNl (joinNl ls) [] = ls ++ [[]] := by
  induction ls with
  | nil => rfl
  | cons l rest ih =>
    simp only [joinNl]
    rw [splitNl_line_append l (h l (by simp)) (joinNl rest) []]
    rw [ih (fun x hx => h x (by simp [hx]))]
    simp

theorem map_dropCR_self (ls : List (List Char))
    (h : ∀ l ∈ ls, l.contains '\r' = false) : ls.map dropCR = ls := by
  induction ls with
  | nil => rfl
  | cons l rest ih =>
    simp only [List.map_cons]
    rw [dropCR_self l (h l (by simp)), ih (fun x hx => h x (by simp [hx]))]

theorem goLines_joinNl (ls : List (List Char))
    (h : ∀ l ∈ ls, l.contains '\n' = false ∧ l.contains '\r' = false) :
    goLines (joinNl ls) = ls := by
  have hs := splitNl_joinNl ls (fun l hl => (h l hl).1)
  simp only [goLines, hs]
  simp [map_dropCR_self ls (fun l hl => (h l hl).2)]

theorem contains_eq_false_of_forall (c : Char) (l : List Char)
    (h : ∀ x ∈ l, x ≠ c) : l.contains c = false := by
  cases hb : l.contains c with
  | false => rfl
  | true => exact absurd rfl (h c (List.elem_iff.mp hb))

theorem contains_append_eq (c : Char) (a b : List Char) :
    (a ++ b).contains c = (a.contains c || b.contains c) := by
  simp [List.elem_iff]

theorem drop_lit_append (k s : List Char) : (k ++ s).drop k.length = s := by
  induction k with
  | nil => simp
  | cons c cs ih =>
    simp only [List.cons_append, List.length_cons, List.drop_succ_cons]
    exact ih

/-- Side conditions on an alias name under which the round trip is exact: a
non-empty name without whitespace, equals signs or semicolons (the name
delimiters of the dialect syntaxes). -/
abbrev goodName (name : List Char) : Prop :=
  name ≠ [] ∧ ∀ c ∈ name, goIsSpace c = false ∧ c ≠ '=' ∧ c ≠ ';'

/-- Side conditions on a command under which the round trip is exact: it is
non-empty; has no leading or trailing whitespace; its only whitespace
characters are plain spaces (so it stays on one line and survives the
field-splitting and space-trimming parses); it contains no quote characters
(the POSIX and fish delimiters); and it does not begin with the fish block
terminator keyword. -/
abbrev goodCommand (cmd : List Char) : Prop :=
  cmd ≠ [] ∧ headNotSpace cmd = true ∧ headNotSpace cmd.reverse = true ∧
  (∀ c ∈ cmd, goIsSpace c = true → c = ' ') ∧
  cmd.contains singleQuote = false ∧ cmd.contains doubleQuote = false ∧
  startsWith "end".toList cmd = false

theorem goodName_no_space (name : List Char) (h : goodName name) :
    name.contains ' ' = false :=
  contains_eq_false_of_forall ' ' name fun x hx he =>
    absurd ((he ▸ (h.2 x hx).1) : goIsSpace ' ' = false) (by decide)

theorem goodName_no_eq (name : List Char) (h : goodName name) :
    name.contains '=' = false :=
  contains_eq_false_of_forall '=' name fun x hx => (h.2 x hx).2.1

theorem goodName_no_nl (name : List Char) (h : goodName name) :
    name.contains '\n' = false :=
  contains_eq_false_of_forall '\n' name fun x hx he =>
    absurd ((he ▸ (h.2 x hx).1) : goIsSpace '\n' = false) (by decide)

theorem goodName_no_cr (name : List Char) (h : goodName name) :
    name.contains '\r' = false :=
  contains_eq_false_of_forall '\r' name fun x hx he =>
    absurd ((he ▸ (h.2 x hx).1) : goIsSpace '\r' = false) (by decide)

theorem goodCommand_no_nl (cmd : List Char) (h : goodCommand cmd) :
    cmd.contains '\n' = false :=
  contains_eq_false_of_forall '\n' cmd fun x hx he =>
    absurd (h.2.2.2.1 x hx (by rw [he]; decide) ▸ he ▸ rfl : '\n' = ' ')
      (by decide)

theorem goodCommand_no_cr (cmd : List Char) (h : goodCommand cmd) :
    cmd.contains '\r' = false :=
  contains_eq_false_of_forall '\r' cmd fun x hx he =>
    absurd (h.2.2.2.1 x hx (by rw [he]; decide) ▸ he ▸ rfl : '\r' = ' ')
      (by decide)

theorem goodCommand_all_nonspace (cmd : List Char) (h : goodCommand cmd)
    (hs : cmd.contains ' ' = false) : ∀ c ∈ cmd, goIsSpace c = false := by
  intro c hc
  cases hb : goIsSpace c with
  | false => rfl
  | true =>
    have he := h.2.2.2.1 c hc hb
    subst he
    exact absurd rfl (contains_false_of_mem ' ' cmd hs _ hc)

theorem parsePosixLine_render (name cmd : List Char) (hn : goodName name)
    (hc : goodCommand cmd) :
    parsePosixLine ("alias ".toList ++ name ++ ['=', singleQuote] ++ cmd ++ [singleQuote]) =
      some (name, cmd) := by
  have hsw : startsWith "alias ".toList
      ("alias ".toList ++ name ++ ['=', singleQuote] ++ cmd ++ [singleQuote]) = true :=
    startsWith_append _ _
  have hdrop : dropPfx "alias ".toList
      ("alias ".toList ++ name ++ ['=', singleQuote] ++ cmd ++ [singleQuote]) =
      name ++ ['=', singleQuote] ++ cmd ++ [singleQuote] := by
    unfold dropPfx
    rw [if_pos hsw]
    exact drop_lit_append _ _
  have hsplit : splitFirst ['='] (name ++ ['=', singleQuote] ++ cmd ++ [singleQuote]) =
      some (name, singleQuote :: (cmd ++ [singleQuote])) := by
    have := splitFirst_char_append '=' name (singleQuote :: (cmd ++ [singleQuote]))
      (goodName_no_eq name hn)
    simpa [List.append_assoc] using this
  unfold parsePosixLine
  rw [if_pos hsw, hdrop]
  unfold splitN2
  rw [hsplit]
  simp [goTrimQuotes_wrap cmd hc.1 hc.2.2.2.2.1 hc.2.2.2.2.2.1]

theorem parseCmdLine_render (name cmd : List Char) (hn : goodName name) :
    parseCmdLine ("doskey ".toList ++ name ++ '=' :: cmd) = some (name, cmd) := by
  have hsw : startsWith "doskey ".toList ("doskey ".toList ++ name ++ '=' :: cmd) = true :=
    startsWith_append _ _
  have hdrop : ("doskey ".toList ++ name ++ '=' :: cmd).drop 7 = name ++ '=' :: cmd := by
    have h7 : ("doskey ".toList).length = 7 := by decide
    have h := drop_lit_append "doskey ".toList (name ++ '=' :: cmd)
    rw [h7] at h
    exact h
  have hsplit : splitFirst ['='] (name ++ '=' :: cmd) = some (name, cmd) :=
    splitFirst_char_append '=' name cmd (goodName_no_eq name hn)
  unfold parseCmdLine
  rw [if_pos hsw, hdrop]
  unfold splitN2
  rw [hsplit]

theorem parseFishAliasLine_render (name cmd : List Char) (hn : goodName name)
    (hc : goodCommand cmd) :
    parseFishAliasLine
      ("alias ".toList ++ name ++ [' ', singleQuote] ++ cmd ++ [singleQuote]) =
      some (name, cmd) := by
  have hsw : startsWith "alias ".toList
      ("alias ".toList ++ name ++ [' ', singleQuote] ++ cmd ++ [singleQuote]) = true :=
    startsWith_append _ _
  have hdrop : dropPfx "alias ".toList
      ("alias ".toList ++ name ++ [' ', singleQuote] ++ cmd ++ [singleQuote]) =
      name ++ [' ', singleQuote] ++ cmd ++ [singleQuote] := by
    unfold dropPfx
    rw [if_pos hsw]
    exact drop_lit_append _ _
  have hsplit : splitFirst [' '] (name ++ [' ', singleQuote] ++ cmd ++ [singleQuote]) =
      some (name, singleQuote :: (cmd ++ [singleQuote])) := by
    have := splitFirst_char_append ' ' name (singleQuote :: (cmd ++ [singleQuote]))
      (goodName_no_space name hn)
    simpa [List.append_assoc] using this
  unfold parseFishAliasLine
  rw [if_pos hsw, hdrop]
  unfold splitN2
  rw [hsplit]
  simp [goTrimQuotes_wrap cmd hc.1 hc.2.2.2.2.1 hc.2.2.2.2.2.1]

theorem ps_extract (cmd : List Char) (hne : cmd ≠ [])
    (hh : headNotSpace cmd = true) (hl : headNotSpace cmd.reverse = true) :
    goTrimSpace (dropSfx [closeBrace]
      (goTrimSpace (' ' :: (cmd ++ [' ', closeBrace])))) = cmd := by
  obtain ⟨c, t, rfl⟩ : ∃ c t, cmd = c :: t := by
    cases cmd with
    | nil => exact absurd rfl hne
    | cons c t => exact ⟨c, t, rfl⟩
  have hcb : goIsSpace closeBrace = false := by decide
  have hc : goIsSpace c = false := by
    simpa [headNotSpace] using hh
  have h1 : goTrimSpace (' ' :: ((c :: t) ++ [' ', closeBrace])) =
      (c :: t) ++ [' ', closeBrace] := by
    unfold goTrimSpace trimLeftWhile trimRightWhile
    rw [List.dropWhile_cons]
    simp only [show goIsSpace ' ' = true by decide, if_true]
    rw [List.cons_append, dropWhile_of_head_not goIsSpace c (t ++ [' ', closeBrace]) hc]
    have hrev : ((c :: t) ++ [' ', closeBrace]).reverse =
        closeBrace :: ' ' :: (c :: t).reverse := by simp
    rw [← List.cons_append, hrev,
      dropWhile_of_head_not goIsSpace closeBrace (' ' :: (c :: t).reverse) hcb,
      ← hrev, List.reverse_reverse]
  rw [h1]
  have h2 : dropSfx [closeBrace] ((c :: t) ++ [' ', closeBrace]) =
      (c :: t) ++ [' '] := by
    unfold dropSfx endsWith
    have hrev : ((c :: t) ++ [' ', closeBrace]).reverse =
        closeBrace :: ' ' :: (c :: t).reverse := by simp
    rw [hrev]
    simp [startsWith]
  rw [h2]
  unfold goTrimSpace trimLeftWhile trimRightWhile
  rw [List.cons_append, dropWhile_of_head_not goIsSpace c (t ++ [' ']) hc,
    ← List.cons_append]
  have hrev2 : ((c :: t) ++ [' ']).reverse = ' ' :: (c :: t).reverse := by simp
  rw [hrev2, List.dropWhile_cons]
  simp only [show goIsSpace ' ' = true by decide, if_true]
  cases hr : (c :: t).reverse with
  | nil => simp at hr
  | cons x xs =>
    rw [hr] at hl
    simp only [headNotSpace, Bool.not_eq_true'] at hl
    rw [dropWhile_of_head_not goIsSpace x xs hl, ← hr, List.reverse_reverse]

theorem parsePowerShellLine_function (name cmd : List Char) (hn : goodName name)
    (hc : goodCommand cmd) :
    parsePowerShellLine
      ("function ".toList ++ name ++ [' ', openBrace, ' '] ++ cmd ++ [' ', closeBrace]) =
      some (name, cmd) := by
  have hsw : startsWith "function ".toList
      ("function ".toList ++ name ++ [' ', openBrace, ' '] ++ cmd ++ [' ', closeBrace]) =
      true := startsWith_append _ _
  have hdrop : ("function ".toList ++ name ++ [' ', openBrace, ' '] ++ cmd ++
      [' ', closeBrace]).drop 9 =
      name ++ [' ', openBrace, ' '] ++ cmd ++ [' ', closeBrace] := by
    have h9 : ("function ".toList).length = 9 := by decide
    have h := drop_lit_append "function ".toList
      (name ++ [' ', openBrace, ' '] ++ cmd ++ [' ', closeBrace])
    rw [h9] at h
    exact h
  have hsplit : splitFirst [' ']
      (name ++ [' ', openBrace, ' '] ++ cmd ++ [' ', closeBrace]) =
      some (name, openBrace :: ' ' :: (cmd ++ [' ', closeBrace])) := by
    have h := splitFirst_char_append ' ' name
      (openBrace :: ' ' :: (cmd ++ [' ', closeBrace])) (goodName_no_space name hn)
    simpa [List.append_assoc] using h
  have hbrace : splitFirst [openBrace]
      (openBrace :: ' ' :: (cmd ++ [' ', closeBrace])) =
      some ([], ' ' :: (cmd ++ [' ', closeBrace])) := by
    have h := splitFirst_char_append openBrace []
      (' ' :: (cmd ++ [' ', closeBrace])) (by simp)
    simpa using h
  unfold parsePowerShellLine
  rw [if_pos hsw, hdrop]
  unfold splitN2
  rw [hsplit]
  simp only [containsSub, hbrace, Option.isSome_some, if_true]
  rw [ps_extract cmd hc.1 hc.2.1 hc.2.2.1]

theorem parsePowerShellLine_setAlias (name cmd : List Char) (hn : goodName name)
    (hc : goodCommand cmd) (hs : cmd.contains ' ' = false) :
    parsePowerShellLine ("Set-Alias ".toList ++ name ++ ' ' :: cmd) =
      some (name, cmd) := by
  have hsw1 : startsWith "function ".toList
      ("Set-Alias ".toList ++ name ++ ' ' :: cmd) = false := rfl
  have hsw2 : startsWith "Set-Alias ".toList
      ("Set-Alias ".toList ++ name ++ ' ' :: cmd) = true := startsWith_append _ _
  have hdrop : ("Set-Alias ".toList ++ name ++ ' ' :: cmd).drop 10 =
      name ++ ' ' :: cmd := by
    have h10 : ("Set-Alias ".toList).length = 10 := by decide
    have h := drop_lit_append "Set-Alias ".toList (name ++ ' ' :: cmd)
    rw [h10] at h
    exact h
  have hfields : goFields (name ++ ' ' :: cmd) = [name, cmd] :=
    goFields_pair name cmd hn.1 hc.1 (fun c hcm => (hn.2 c hcm).1)
      (goodCommand_all_nonspace cmd hc hs)
  unfold parsePowerShellLine
  rw [hsw1]
  simp only [Bool.false_eq_true, if_false]
  rw [if_pos hsw2, hdrop, hfields]

theorem parseFishFunctionHead_render (name : List Char) (hn : goodName name) :
    parseFishFunctionHead ("function ".toList ++ name) = some name := by
  have hsw : startsWith "function ".toList ("function ".toList ++ name) = true :=
    startsWith_append _ _
  have hdrop : ("function ".toList ++ name).drop 9 = name := by
    have h9 : ("function ".toList).length = 9 := by decide
    have h := drop_lit_append "function ".toList name
    rw [h9] at h
    exact h
  have hsplit : splitFirst [' '] name = none :=
    splitFirst_char_none ' ' name (goodName_no_space name hn)
  have hsfx : dropSfx [';'] name = name := by
    unfold dropSfx
    rw [endsWith_single_false ';' name (fun x hx => (hn.2 x hx).2.2)]
    simp
  unfold parseFishFunctionHead
  rw [if_pos hsw, hdrop]
  unfold splitN2
  rw [hsplit]
  simp only []
  rw [hsfx]

theorem fishBodyCommand_render (cmd : List Char) (hc : goodCommand cmd) :
    fishBodyCommand ("    ".toList ++ cmd) = some cmd := by
  have htr : goTrimSpace ("    ".toList ++ cmd) = cmd := by
    unfold goTrimSpace trimLeftWhile
    rw [dropWhile_append_of_all goIsSpace "    ".toList cmd (by decide)]
    have h1 : List.dropWhile goIsSpace cmd = cmd := by
      cases cmd with
      | nil => rfl
      | cons c t =>
        have hh := hc.2.1
        simp only [headNotSpace, Bool.not_eq_true'] at hh
        exact dropWhile_of_head_not goIsSpace c t hh
    rw [h1]
    exact trimRightWhile_space_self cmd hc.2.2.1
  unfold fishBodyCommand
  simp only [htr]
  have hend := hc.2.2.2.2.2.2
  simp only [show ("end".toList) = ['e', 'n', 'd'] from rfl] at hend
  simp [hend]

theorem parseFishAliasLine_function (x : List Char) :
    parseFishAliasLine ("function ".toList ++ x) = none := by
  have hsw : startsWith "alias ".toList ("function ".toList ++ x) = false := rfl
  unfold parseFishAliasLine
  rw [hsw]
  simp

theorem parseFishAliasLine_end : parseFishAliasLine "end".toList = none := by decide

theorem parseFishFunctionHead_end : parseFishFunctionHead "end".toList = none := by
  decide

theorem importLines_step_bash (st : Store) (line : List Char) (rest : List (List Char))
    (nc : List Char × List Char) (h : parsePosixLine line = some nc) :
    importLines .bash st (line :: rest) =
      importLines .bash (AddAlias .bash st nc.1 nc.2) rest := by
  simp only [importLines, h]

theorem importLines_step_zsh (st : Store) (line : List Char) (rest : List (List Char))
    (nc : List Char × List Char) (h : parsePosixLine line = some nc) :
    importLines .zsh st (line :: rest) =
      importLines .zsh (AddAlias .zsh st nc.1 nc.2) rest := by
  simp only [importLines, h]

theorem importLines_step_ksh (st : Store) (line : List Char) (rest : List (List Char))
    (nc : List Char × List Char) (h : parsePosixLine line = some nc) :
    importLines .ksh st (line :: rest) =
      importLines .ksh (AddAlias .ksh st nc.1 nc.2) rest := by
  simp only [importLines, h]

theorem importLines_step_cmd (st : Store) (line : List Char) (rest : List (List Char))
    (nc : List Char × List Char) (h : parseCmdLine line = some nc) :
    importLines .cmd st (line :: rest) =
      importLines .cmd (AddAlias .cmd st nc.1 nc.2) rest := by
  simp only [importLines, h]

theorem importLines_step_powershell (st : Store) (line : List Char)
    (rest : List (List Char)) (nc : List Char × List Char)
    (h : parsePowerShellLine line = some nc) :
    importLines .powershell st (line :: rest) =
      importLines .powershell (AddAlias .powershell st nc.1 nc.2) rest := by
  simp only [importLines, h]

theorem importLines_step_powershellCore (st : Store) (line : List Char)
    (rest : List (List Char)) (nc : List Char × List Char)
    (h : parsePowerShellLine line = some nc) :
    importLines .powershellCore st (line :: rest) =
      importLines .powershellCore (AddAlias .powershellCore st nc.1 nc.2) rest := by
  simp only [importLines, h]

theorem importLines_step_fish_func (st : Store) (line body : List Char)
    (rest2 : List (List Char)) (fname c : List Char)
    (h1 : parseFishAliasLine line = none) (h2 : parseFishFunctionHead line = some fname)
    (h3 : fishBodyCommand body = some c) :
    importLines .fish st (line :: body :: rest2) =
      importLines .fish (AddAlias .fish st fname c) rest2 := by
  simp only [importLines, h1, h2, h3]

theorem importLines_step_fish_func_none (st : Store) (line body : List Char)
    (rest2 : List (List Char)) (fname : List Char)
    (h1 : parseFishAliasLine line = none) (h2 : parseFishFunctionHead line = some fname)
    (h3 : fishBodyCommand body = none) :
    importLines .fish st (line :: body :: rest2) = importLines .fish st rest2 := by
  simp only [importLines, h1, h2, h3]

theorem importLines_step_fish_alias (st : Store) (line : List Char)
    (rest : List (List Char)) (nc : List Char × List Char)
    (h : parseFishAliasLine line = some nc) :
    importLines .fish st (line :: rest) =
      importLines .fish (AddAlias .fish st nc.1 nc.2) rest := by
  simp only [importLines, h]

theorem importLines_step_fish_skip (st : Store) (line : List Char)
    (rest : List (List Char)) (h1 : parseFishAliasLine line = none)
    (h2 : parseFishFunctionHead line = none) :
    importLines .fish st (line :: rest) = importLines .fish st rest := by
  simp only [importLines, h1, h2]

/-- C3: for every dialect, rendering an alias definition and feeding the
produced lines back through the same dialect's import parse recovers exactly
the original name and command, provided the name and command avoid the
dialect delimiters (goodName and goodCommand: non-empty, no whitespace other
than interior spaces in the command, no quote characters, no leading or
trailing whitespace, not beginning with the fish terminator keyword). -/
theorem renderAlias_import_roundTrip (sh : ShellType) (name cmd : List Char)
    (hn : goodName name) (hc : goodCommand cmd) :
    importLines sh [] (goLines (renderAlias sh name cmd)) =
      [(name, setCommand sh cmd emptyAliasCommands)] := by
  have hnN := goodName_no_nl name hn
  have hnC := goodName_no_cr name hn
  have hcN := goodCommand_no_nl cmd hc
  have hcC := goodCommand_no_cr cmd hc
  cases sh with
  | bash =>
    have hline : ∀ l ∈ ["alias ".toList ++ name ++ ['=', singleQuote] ++ cmd ++ [singleQuote]],
        l.contains '\n' = false ∧ l.contains '\r' = false := by
      intro l hl
      simp only [List.mem_singleton] at hl
      subst hl
      constructor
      · simp only [contains_append_eq, hnN, hcN, Bool.or_false, Bool.false_or]
        decide
      · simp only [contains_append_eq, hnC, hcC, Bool.or_false, Bool.false_or]
        decide
    have hform : renderAlias .bash name cmd =
        joinNl ["alias ".toList ++ name ++ ['=', singleQuote] ++ cmd ++ [singleQuote]] := by
      simp [renderAlias, joinNl, nl, List.append_assoc]
    rw [hform, goLines_joinNl _ hline,
      importLines_step_bash [] _ [] (name, cmd) (parsePosixLine_render name cmd hn hc)]
    rfl
  | zsh =>
    have hline : ∀ l ∈ ["alias ".toList ++ name ++ ['=', singleQuote] ++ cmd ++ [singleQuote]],
        l.contains '\n' = false ∧ l.contains '\r' = false := by
      intro l hl
      simp only [List.mem_singleton] at hl
      subst hl
      constructor
      · simp only [contains_append_eq, hnN, hcN, Bool.or_false, Bool.false_or]
        decide
      · simp only [contains_append_eq, hnC, hcC, Bool.or_false, Bool.false_or]
        decide
    have hform : renderAlias .zsh name cmd =
        joinNl ["alias ".toList ++ name ++ ['=', singleQuote] ++ cmd ++ [singleQuote]] := by
      simp [renderAlias, joinNl, nl, List.append_assoc]
    rw [hform, goLines_joinNl _ hline,
      importLines_step_zsh [] _ [] (name, cmd) (parsePosixLine_render name cmd hn hc)]
    rfl
  | ksh =>
    have hline : ∀ l ∈ ["alias ".toList ++ name ++ ['=', singleQuote] ++ cmd ++ [singleQuote]],
        l.contains '\n' = false ∧ l.contains '\r' = false := by
      intro l hl
      simp only [List.mem_singleton] at hl
      subst hl
      constructor
      · simp only [contains_append_eq, hnN, hcN, Bool.or_false, Bool.false_or]
        decide
      · simp only [contains_append_eq, hnC, hcC, Bool.or_false, Bool.false_or]
        decide
    have hform : renderAlias .ksh name cmd =
        joinNl ["alias ".toList ++ name ++ ['=', singleQuote] ++ cmd ++ [singleQuote]] := by
      simp [renderAlias, joinNl, nl, List.append_assoc]
    rw [hform, goLines_joinNl _ hline,
      importLines_step_ksh [] _ [] (name, cmd) (parsePosixLine_render name cmd hn hc)]
    rfl
  | cmd =>
    have hline : ∀ l ∈ ["doskey ".toList ++ name ++ '=' :: cmd],
        l.contains '\n' = false ∧ l.contains '\r' = false := by
      intro l hl
      simp only [List.mem_singleton] at hl
      subst hl
      constructor
      · simp only [show ('=' :: cmd) = [('=' : Char)] ++ cmd from rfl,
          contains_append_eq, hnN, hcN, Bool.or_false, Bool.false_or]
        decide
      · simp only [show ('=' :: cmd) = [('=' : Char)] ++ cmd from rfl,
          contains_append_eq, hnC, hcC, Bool.or_false, Bool.false_or]
        decide
    have hform : renderAlias .cmd name cmd =
        joinNl ["doskey ".toList ++ name ++ '=' :: cmd] := by
      simp [renderAlias, joinNl, nl, List.append_assoc]
    rw [hform, goLines_joinNl _ hline,
      importLines_step_cmd [] _ [] (name, cmd) (parseCmdLine_render name cmd hn)]
    rfl
  | powershell =>
    cases hs : cmd.contains ' ' with
    | true =>
      have hline : ∀ l ∈
          ["function ".toList ++ name ++ [' ', openBrace, ' '] ++ cmd ++ [' ', closeBrace]],
          l.contains '\n' = false ∧ l.contains '\r' = false := by
        intro l hl
        simp only [List.mem_singleton] at hl
        subst hl
        constructor
        · simp only [contains_append_eq, hnN, hcN, Bool.or_false, Bool.false_or]
          decide
        · simp only [contains_append_eq, hnC, hcC, Bool.or_false, Bool.false_or]
          decide
      have hform : renderAlias .powershell name cmd =
          joinNl ["function ".toList ++ name ++ [' ', openBrace, ' '] ++ cmd ++
            [' ', closeBrace]] := by
        simp [renderAlias, wrappedFunctionForm, joinNl, nl, hs, List.append_assoc]
        intro h
        exact absurd (List.elem_iff.mp hs) h
      rw [hform, goLines_joinNl _ hline,
        importLines_step_powershell [] _ [] (name, cmd)
          (parsePowerShellLine_function name cmd hn hc)]
      rfl
    | false =>
      have hline : ∀ l ∈ ["Set-Alias ".toList ++ name ++ ' ' :: cmd],
          l.contains '\n' = false ∧ l.contains '\r' = false := by
        intro l hl
        simp only [List.mem_singleton] at hl
        subst hl
        constructor
        · simp only [show (' ' :: cmd) = [(' ' : Char)] ++ cmd from rfl,
            contains_append_eq, hnN, hcN, Bool.or_false, Bool.false_or]
          decide
        · simp only [show (' ' :: cmd) = [(' ' : Char)] ++ cmd from rfl,
            contains_append_eq, hnC, hcC, Bool.or_false, Bool.false_or]
          decide
      have hform : renderAlias .powershell name cmd =
          joinNl ["Set-Alias ".toList ++ name ++ ' ' :: cmd] := by
        simp [renderAlias, simpleAliasForm, joinNl, nl, hs, List.append_assoc]
        intro h
        have hm : cmd.contains ' ' = true := List.elem_iff.mpr h
        rw [hs] at hm
        exact absurd hm (by decide)
      rw [hform, goLines_joinNl _ hline,
        importLines_step_powershell [] _ [] (name, cmd)
          (parsePowerShellLine_setAlias name cmd hn hc hs)]
      rfl
  | powershellCore =>
    cases hs : cmd.contains ' ' with
    | true =>
      have hline : ∀ l ∈
          ["function ".toList ++ name ++ [' ', openBrace, ' '] ++ cmd ++ [' ', closeBrace]],
          l.contains '\n' = false ∧ l.contains '\r' = false := by
        intro l hl
        simp only [List.mem_singleton] at hl
        subst hl
        constructor
        · simp only [contains_append_eq, hnN, hcN, Bool.or_false, Bool.false_or]
          decide
        · simp only [contains_append_eq, hnC, hcC, Bool.or_false, Bool.false_or]
          decide
      have hform : renderAlias .powershellCore name cmd =
          joinNl ["function ".toList ++ name ++ [' ', openBrace, ' '] ++ cmd ++
            [' ', closeBrace]] := by
        simp [renderAlias, wrappedFunctionForm, joinNl, nl, hs, List.append_assoc]
        intro h
        exact absurd (List.elem_iff.mp hs) h
      rw [hform, goLines_joinNl _ hline,
        importLines_step_powershellCore [] _ [] (name, cmd)
          (parsePowerShellLine_function name cmd hn hc)]
      rfl
    | false =>
      have hline : ∀ l ∈ ["Set-Alias ".toList ++ name ++ ' ' :: cmd],
          l.contains '\n' = false ∧ l.contains '\r' = false := by
        intro l hl
        simp only [List.mem_singleton] at hl
        subst hl
        constructor
        · simp only [show (' ' :: cmd) = [(' ' : Char)] ++ cmd from rfl,
            contains_append_eq, hnN, hcN, Bool.or_false, Bool.false_or]
          decide
        · simp only [show (' ' :: cmd) = [(' ' : Char)] ++ cmd from rfl,
            contains_append_eq, hnC, hcC, Bool.or_false, Bool.false_or]
          decide
      have hform : renderAlias .powershellCore name cmd =
          joinNl ["Set-Alias ".toList ++ name ++ ' ' :: cmd] := by
        simp [renderAlias, simpleAliasForm, joinNl, nl, hs, List.append_assoc]
        intro h
        have hm : cmd.contains ' ' = true := List.elem_iff.mpr h
        rw [hs] at hm
        exact absurd hm (by decide)
      rw [hform, goLines_joinNl _ hline,
        importLines_step_powershellCore [] _ [] (name, cmd)
          (parsePowerShellLine_setAlias name cmd hn hc hs)]
      rfl
  | fish =>
    cases hs : cmd.contains ' ' with
    | true =>
      have hline : ∀ l ∈
          ["function ".toList ++ name, "    ".toList ++ cmd, "end".toList],
          l.contains '\n' = false ∧ l.contains '\r' = false := by
        intro l hl
        simp only [List.mem_cons, List.not_mem_nil, or_false] at hl
        rcases hl with hl | hl | hl
        · subst hl
          constructor
          · simp only [contains_append_eq, hnN, Bool.or_false, Bool.false_or]
            decide
          · simp only [contains_append_eq, hnC, Bool.or_false, Bool.false_or]
            decide
        · subst hl
          constructor
          · simp only [contains_append_eq, hcN, Bool.or_false, Bool.false_or]
            decide
          · simp only [contains_append_eq, hcC, Bool.or_false, Bool.false_or]
            decide
        · subst hl
          exact ⟨by decide, by decide⟩
      have hform : renderAlias .fish name cmd =
          joinNl ["function ".toList ++ name, "    ".toList ++ cmd, "end".toList] := by
        simp [renderAlias, wrappedFunctionForm, joinNl, nl, hs, List.append_assoc]
        intro h
        exact absurd (List.elem_iff.mp hs) h
      rw [hform, goLines_joinNl _ hline,
        importLines_step_fish_func [] _ _ ["end".toList] name cmd
          (parseFishAliasLine_function name) (parseFishFunctionHead_render name hn)
          (fishBodyCommand_render cmd hc),
        importLines_step_fish_skip _ _ [] parseFishAliasLine_end
          parseFishFunctionHead_end]
      rfl
    | false =>
      have hline : ∀ l ∈
          ["alias ".toList ++ name ++ [' ', singleQuote] ++ cmd ++ [singleQuote]],
          l.contains '\n' = false ∧ l.contains '\r' = false := by
        intro l hl
        simp only [List.mem_singleton] at hl
        subst hl
        constructor
        · simp only [contains_append_eq, hnN, hcN, Bool.or_false, Bool.false_or]
          decide
        · simp only [contains_append_eq, hnC, hcC, Bool.or_false, Bool.false_or]
          decide
      have hform : renderAlias .fish name cmd =
          joinNl ["alias ".toList ++ name ++ [' ', singleQuote] ++ cmd ++ [singleQuote]] := by
        simp [renderAlias, simpleAliasForm, joinNl, nl, hs, List.append_assoc]
        intro h
        have hm : cmd.contains ' ' = true := List.elem_iff.mpr h
        rw [hs] at hm
        exact absurd hm (by decide)
      rw [hform, goLines_joinNl _ hline,
        importLines_step_fish_alias [] _ [] (name, cmd)
          (parseFishAliasLine_render name cmd hn hc)]
      rfl

/-- C2 amended: for a file containing both markers, ApplyAliases preserves
the bytes before the first start marker exactly, and the input's bytes after
the first end marker reappear verbatim as the final bytes of the output,
after the freshly written end-marker line: the output is prefix, start-marker
line, fresh body, end-marker line, then the input's post-end-marker bytes.
In the output those bytes are preceded by the rewritten end-marker line's own
newline, so they are shifted by one newline rather than byte-identical in
place. -/
theorem ApplyAliases_with_block (sh : ShellType) (st : Store) (f P rest q S : List Char)
    (h1 : splitFirst startMarker f = some (P, rest))
    (h2 : splitFirst endMarker f = some (q, S)) :
    f = P ++ startMarker ++ rest ∧ f = q ++ endMarker ++ S ∧
    ApplyAliases sh st (some f) =
      P ++ startMarker ++ nl ++ renderBody sh st ++ endMarker ++ nl ++ S := by
  refine ⟨splitFirst_sound _ _ _ _ h1, splitFirst_sound _ _ _ _ h2, ?_⟩
  simp only [ApplyAliases, containsSub, splitN2, h1, h2, Option.isSome_some,
    Bool.not_true, Bool.false_and, Bool.false_eq_true, if_false, if_true,
    Bool.and_self, Option.getD_some]

/-- C9: when the file contains the start marker but not the end marker,
ApplyAliases writes exactly the content before the first start marker
followed by the freshly rendered managed block; everything after the start
marker is discarded. -/
theorem ApplyAliases_marker_no_end (sh : ShellType) (st : Store) (f P rest : List Char)
    (h1 : splitFirst startMarker f = some (P, rest))
    (h2 : containsSub endMarker f = false) :
    f = P ++ startMarker ++ rest ∧
    ApplyAliases sh st (some f) =
      P ++ startMarker ++ nl ++ renderBody sh st ++ endMarker ++ nl := by
  refine ⟨splitFirst_sound _ _ _ _ h1, ?_⟩
  have h2b : (splitFirst endMarker f).isSome = false := h2
  simp only [ApplyAliases, containsSub, splitN2, h1, h2b, Option.isSome_some,
    Bool.not_true, Bool.false_and, Bool.false_eq_true, if_false, if_true,
    Bool.and_false, Option.getD_none]
  simp [List.append_assoc]

theorem hasNonEmptyCommand_setCommand (sh : ShellType) (c : List Char)
    (ac : AliasCommands) (h : c ≠ []) :
    hasNonEmptyCommand (setCommand sh c ac) = true := by
  have hc : (c == []) = false := beq_eq_false_iff_ne.mpr h
  cases sh <;> simp [setCommand, hasNonEmptyCommand, hc]

theorem storeInv_upsert (n : List Char) (ac : AliasCommands)
    (hac : hasNonEmptyCommand ac = true) :
    ∀ st : Store, storeInv st = true → storeInv (upsertAC st n ac) = true := by
  intro st
  induction st with
  | nil =>
    intro _
    simp [upsertAC, storeInv, hac]
  | cons e rest ih =>
    intro hst
    simp only [storeInv, List.all_cons, Bool.and_eq_true] at hst
    cases he : (e.1 == n) with
    | true => simp [upsertAC, he, storeInv, hac, hst.2]
    | false =>
      simp only [upsertAC, he, Bool.false_eq_true, if_false]
      have h2 := ih hst.2
      simp only [storeInv, List.all_cons, Bool.and_eq_true]
      exact ⟨hst.1, h2⟩

theorem storeInv_AddAlias (sh : ShellType) (st : Store) (n c : List Char)
    (hst : storeInv st = true) (hc : c ≠ []) :
    storeInv (AddAlias sh st n c) = true :=
  storeInv_upsert n (setCommand sh c (lookupAC st n))
    (hasNonEmptyCommand_setCommand sh c (lookupAC st n) hc) st hst

theorem storeInv_filter (p : List Char × AliasCommands → Bool) :
    ∀ st : Store, storeInv st = true → storeInv (st.filter p) = true := by
  intro st
  induction st with
  | nil => intro _; rfl
  | cons e rest ih =>
    intro hst
    simp only [storeInv, List.all_cons, Bool.and_eq_true] at hst
    cases hp : p e with
    | true =>
      simp only [List.filter_cons, hp, if_true, storeInv, List.all_cons,
        Bool.and_eq_true]
      exact ⟨hst.1, ih hst.2⟩
    | false =>
      simp only [List.filter_cons, hp, Bool.false_eq_true, if_false]
      exact ih hst.2

theorem storeInv_RemoveAlias (st : Store) (n : List Char)
    (hst : storeInv st = true) : storeInv (RemoveAlias st n).1 = true := by
  unfold RemoveAlias
  cases ha : st.any (fun e => e.1 == n) with
  | true => simpa using storeInv_filter _ st hst
  | false => simpa using hst

theorem importLinesOK_cons_bash (line : List Char) (rest : List (List Char)) :
    importLinesOK .bash (line :: rest) =
      ((match parsePosixLine line with
        | some nc => !(nc.2 == [])
        | none => true) && importLinesOK .bash rest) := by
  cases rest <;> simp [importLinesOK]

theorem importLinesOK_cons_zsh (line : List Char) (rest : List (List Char)) :
    importLinesOK .zsh (line :: rest) =
      ((match parsePosixLine line with
        | some nc => !(nc.2 == [])
        | none => true) && importLinesOK .zsh rest) := by
  cases rest <;> simp [importLinesOK]

theorem importLinesOK_cons_ksh (line : List Char) (rest : List (List Char)) :
    importLinesOK .ksh (line :: rest) =
      ((match parsePosixLine line with
        | some nc => !(nc.2 == [])
        | none => true) && importLinesOK .ksh rest) := by
  cases rest <;> simp [importLinesOK]

theorem importLinesOK_cons_cmd (line : List Char) (rest : List (List Char)) :
    importLinesOK .cmd (line :: rest) =
      ((match parseCmdLine line with
        | some nc => !(nc.2 == [])
        | none => true) && importLinesOK .cmd rest) := by
  cases rest <;> simp [importLinesOK]

theorem importLinesOK_cons_powershell (line : List Char) (rest : List (List Char)) :
    importLinesOK .powershell (line :: rest) =
      ((match parsePowerShellLine line with
        | some nc => !(nc.2 == [])
        | none => true) && importLinesOK .powershell rest) := by
  cases rest <;> simp [importLinesOK]

theorem importLinesOK_cons_powershellCore (line : List Char) (rest : List (List Char)) :
    importLinesOK .powershellCore (line :: rest) =
      ((match parsePowerShellLine line with
        | some nc => !(nc.2 == [])
        | none => true) && importLinesOK .powershellCore rest) := by
  cases rest <;> simp [importLinesOK]

theorem importLinesOK_fish_alias (line : List Char) (rest : List (List Char))
    (nc : List Char × List Char) (h : parseFishAliasLine line = some nc) :
    importLinesOK .fish (line :: rest) =
      (!(nc.2 == []) && importLinesOK .fish rest) := by
  cases rest <;> simp [importLinesOK, h]

theorem importLinesOK_fish_skip (line : List Char) (rest : List (List Char))
    (h1 : parseFishAliasLine line = none) (h2 : parseFishFunctionHead line = none) :
    importLinesOK .fish (line :: rest) = importLinesOK .fish rest := by
  cases rest <;> simp [importLinesOK, h1, h2]

theorem importLinesOK_fish_func (line body : List Char) (rest2 : List (List Char))
    (fname : List Char) (h1 : parseFishAliasLine line = none)
    (h2 : parseFishFunctionHead line = some fname) :
    importLinesOK .fish (line :: body :: rest2) =
      ((match fishBodyCommand body with
        | some c => !(c == [])
        | none => true) && importLinesOK .fish rest2) := by
  simp [importLinesOK, h1, h2]

theorem importLines_inv_aux (sh : ShellType) :
    ∀ (n : Nat) (lines : List (List Char)) (st : Store), lines.length ≤ n →
      storeInv st = true → importLinesOK sh lines = true →
      storeInv (importLines sh st lines) = true := by
  intro n
  induction n with
  | zero =>
    intro lines st hl hst _
    have hnil : lines = [] := List.eq_nil_of_length_eq_zero (Nat.le_zero.mp hl)
    subst hnil
    cases sh <;> simpa [importLines] using hst
  | succ n ih =>
    intro lines st hl hst hok
    cases lines with
    | nil => cases sh <;> simpa [importLines] using hst
    | cons line rest =>
      have hr : rest.length ≤ n := by
        simp only [List.length_cons] at hl
        omega
      cases sh with
      | bash =>
        simp only [importLines]
        rw [importLinesOK_cons_bash] at hok
        cases hp : parsePosixLine line with
        | none =>
          rw [hp] at hok
          simp only [Bool.true_and] at hok
          exact ih rest st hr hst hok
        | some nc =>
          rw [hp] at hok
          simp only [Bool.and_eq_true, Bool.not_eq_true', beq_eq_false_iff_ne] at hok
          exact ih rest _ hr (storeInv_AddAlias _ st nc.1 nc.2 hst hok.1) hok.2
      | zsh =>
        simp only [importLines]
        rw [importLinesOK_cons_zsh] at hok
        cases hp : parsePosixLine line with
        | none =>
          rw [hp] at hok
          simp only [Bool.true_and] at hok
          exact ih rest st hr hst hok
        | some nc =>
          rw [hp] at hok
          simp only [Bool.and_eq_true, Bool.not_eq_true', beq_eq_false_iff_ne] at hok
          exact ih rest _ hr (storeInv_AddAlias _ st nc.1 nc.2 hst hok.1) hok.2
      | ksh =>
        simp only [importLines]
        rw [importLinesOK_cons_ksh] at hok
        cases hp : parsePosixLine line with
        | none =>
          rw [hp] at hok
          simp only [Bool.true_and] at hok
          exact ih rest st hr hst hok
        | some nc =>
          rw [hp] at hok
          simp only [Bool.and_eq_true, Bool.not_eq_true', beq_eq_false_iff_ne] at hok
          exact ih rest _ hr (storeInv_AddAlias _ st nc.1 nc.2 hst hok.1) hok.2
      | cmd =>
        simp only [importLines]
        rw [importLinesOK_cons_cmd] at hok
        cases hp : parseCmdLine line with
        | none =>
          rw [hp] at hok
          simp only [Bool.true_and] at hok
          exact ih rest st hr hst hok
        | some nc =>
          rw [hp] at hok
          simp only [Bool.and_eq_true, Bool.not_eq_true', beq_eq_false_iff_ne] at hok
          exact ih rest _ hr (storeInv_AddAlias _ st nc.1 nc.2 hst hok.1) hok.2
      | powershell =>
        simp only [importLines]
        rw [importLinesOK_cons_powershell] at hok
        cases hp : parsePowerShellLine line with
        | none =>
          rw [hp] at hok
          simp only [Bool.true_and] at hok
          exact ih rest st hr hst hok
        | some nc =>
          rw [hp] at hok
          simp only [Bool.and_eq_true, Bool.not_eq_true', beq_eq_false_iff_ne] at hok
          exact ih rest _ hr (storeInv_AddAlias _ st nc.1 nc.2 hst hok.1) hok.2
      | powershellCore =>
        simp only [importLines]
        rw [importLinesOK_cons_powershellCore] at hok
        cases hp : parsePowerShellLine line with
        | none =>
          rw [hp] at hok
          simp only [Bool.true_and] at hok
          exact ih rest st hr hst hok
        | some nc =>
          rw [hp] at hok
          simp only [Bool.and_eq_true, Bool.not_eq_true', beq_eq_false_iff_ne] at hok
          exact ih rest _ hr (storeInv_AddAlias _ st nc.1 nc.2 hst hok.1) hok.2
      | fish =>
        cases ha : parseFishAliasLine line with
        | some nc =>
          rw [importLines_step_fish_alias st line rest nc ha]
          rw [importLinesOK_fish_alias line rest nc ha] at hok
          simp only [Bool.and_eq_true, Bool.not_eq_true', beq_eq_false_iff_ne] at hok
          exact ih rest _ hr (storeInv_AddAlias _ st nc.1 nc.2 hst hok.1) hok.2
        | none =>
          cases hh : parseFishFunctionHead line with
          | none =>
            rw [importLines_step_fish_skip st line rest ha hh]
            rw [importLinesOK_fish_skip line rest ha hh] at hok
            exact ih rest st hr hst hok
          | some fname =>
            cases rest with
            | nil =>
              have hstep : importLines .fish st [line] = st := by
                simp only [importLines, ha, hh]
              rw [hstep]
              exact hst
            | cons body rest2 =>
              have hr2 : rest2.length ≤ n := by
                simp only [List.length_cons] at hl
                omega
              rw [importLinesOK_fish_func line body rest2 fname ha hh] at hok
              cases hb : fishBodyCommand body with
              | none =>
                rw [importLines_step_fish_func_none st line body rest2 fname ha hh hb]
                rw [hb] at hok
                simp only [Bool.true_and] at hok
                exact ih rest2 st hr2 hst hok
              | some c =>
                rw [importLines_step_fish_func st line body rest2 fname c ha hh hb]
                rw [hb] at hok
                simp only [Bool.and_eq_true, Bool.not_eq_true',
                  beq_eq_false_iff_ne] at hok
                exact ih rest2 _ hr2 (storeInv_AddAlias _ st fname c hst hok.1) hok.2

theorem importLines_inv (sh : ShellType) (st : Store) (lines : List (List Char))
    (hst : storeInv st = true) (hok : importLinesOK sh lines = true) :
    storeInv (importLines sh st lines) = true :=
  importLines_inv_aux sh lines.length lines st (Nat.le_refl _) hst hok

theorem runOps_inv : ∀ (ops : List StoreOp) (st : Store), storeInv st = true →
    opsOK ops = true → storeInv (runOps st ops) = true := by
  intro ops
  induction ops with
  | nil =>
    intro st hst _
    simpa [runOps] using hst
  | cons op ops ih =>
    intro st hst hok
    simp only [opsOK, List.all_cons, Bool.and_eq_true] at hok
    simp only [runOps]
    apply ih _ ?_ hok.2
    cases op with
    | add sh n c =>
      have hc : c ≠ [] := by
        have h1 := hok.1
        simp only [opOK, Bool.not_eq_true', beq_eq_false_iff_ne] at h1
        exact h1
      exact storeInv_AddAlias sh st n c hst hc
    | remove n => exact storeInv_RemoveAlias st n hst
    | importFile sh lines => exact importLines_inv sh st lines hst hok.1

/-- The defining keywords the import parser tests at line start, per dialect
(alias_operations.go lines 118-206). -/
def dialectKeywords : ShellType → List (List Char)
  | .powershell | .powershellCore => ["function ".toList, "Set-Alias ".toList]
  | .cmd => ["doskey ".toList]
  | .fish => ["alias ".toList, "function ".toList]
  | _ => ["alias ".toList]

theorem parsePosixLine_none (line : List Char)
    (h : startsWith "alias ".toList line = false) : parsePosixLine line = none := by
  unfold parsePosixLine
  rw [h]
  simp

theorem parseCmdLine_none (line : List Char)
    (h : startsWith "doskey ".toList line = false) : parseCmdLine line = none := by
  unfold parseCmdLine
  rw [h]
  simp

theorem parsePowerShellLine_none (line : List Char)
    (h1 : startsWith "function ".toList line = false)
    (h2 : startsWith "Set-Alias ".toList line = false) :
    parsePowerShellLine line = none := by
  unfold parsePowerShellLine
  rw [h1, h2]
  simp

theorem parseFishAliasLine_none (line : List Char)
    (h : startsWith "alias ".toList line = false) : parseFishAliasLine line = none := by
  unfold parseFishAliasLine
  rw [h]
  simp

theorem parseFishFunctionHead_none (line : List Char)
    (h : startsWith "function ".toList line = false) :
    parseFishFunctionHead line = none := by
  unfold parseFishFunctionHead
  rw [h]
  simp

theorem importLines_skip_nonKeyword (sh : ShellType) (st : Store) (line : List Char)
    (rest : List (List Char))
    (h : ∀ k ∈ dialectKeywords sh, startsWith k line = false) :
    importLines sh st (line :: rest) = importLines sh st rest := by
  cases sh with
  | bash =>
    simp only [importLines,
      parsePosixLine_none line (h _ (by simp [dialectKeywords]))]
  | zsh =>
    simp only [importLines,
      parsePosixLine_none line (h _ (by simp [dialectKeywords]))]
  | ksh =>
    simp only [importLines,
      parsePosixLine_none line (h _ (by simp [dialectKeywords]))]
  | cmd =>
    simp only [importLines,
      parseCmdLine_none line (h _ (by simp [dialectKeywords]))]
  | powershell =>
    simp only [importLines,
      parsePowerShellLine_none line (h _ (by simp [dialectKeywords]))
        (h _ (by simp [dialectKeywords]))]
  | powershellCore =>
    simp only [importLines,
      parsePowerShellLine_none line (h _ (by simp [dialectKeywords]))
        (h _ (by simp [dialectKeywords]))]
  | fish =>
    exact importLines_step_fish_skip st line rest
      (parseFishAliasLine_none line (h _ (by simp [dialectKeywords])))
      (parseFishFunctionHead_none line (h _ (by simp [dialectKeywords])))

theorem renderAlias_fish_space (name cmd : List Char) (h : cmd.contains ' ' = true) :
    renderAlias .fish name cmd = wrappedFunctionForm .fish name cmd := by
  have hm : ' ' ∈ cmd := List.elem_iff.mp h
  simp [renderAlias, hm]

theorem renderAlias_fish_nospace (name cmd : List Char) (h : cmd.contains ' ' = false) :
    renderAlias .fish name cmd = simpleAliasForm .fish name cmd := by
  have hm : ' ' ∉ cmd := by
    intro hx
    have hb : cmd.contains ' ' = true := List.elem_iff.mpr hx
    rw [h] at hb
    exact absurd hb (by decide)
  simp [renderAlias, hm]

theorem renderAlias_ps_space (name cmd : List Char) (h : cmd.contains ' ' = true) :
    renderAlias .powershell name cmd = wrappedFunctionForm .powershell name cmd := by
  have hm : ' ' ∈ cmd := List.elem_iff.mp h
  simp [renderAlias, hm]

theorem renderAlias_ps_nospace (name cmd : List Char) (h : cmd.contains ' ' = false) :
    renderAlias .powershell name cmd = simpleAliasForm .powershell name cmd := by
  have hm : ' ' ∉ cmd := by
    intro hx
    have hb : cmd.contains ' ' = true := List.elem_iff.mpr hx
    rw [h] at hb
    exact absurd hb (by decide)
  simp [renderAlias, hm]

theorem renderAlias_pwsh_space (name cmd : List Char) (h : cmd.contains ' ' = true) :
    renderAlias .powershellCore name cmd = wrappedFunctionForm .powershellCore name cmd := by
  have hm : ' ' ∈ cmd := List.elem_iff.mp h
  simp [renderAlias, hm]

theorem renderAlias_pwsh_nospace (name cmd : List Char) (h : cmd.contains ' ' = false) :
    renderAlias .powershellCore name cmd = simpleAliasForm .powershellCore name cmd := by
  have hm : ' ' ∉ cmd := by
    intro hx
    have hb : cmd.contains ' ' = true := List.elem_iff.mpr hx
    rw [h] at hb
    exact absurd hb (by decide)
  simp [renderAlias, hm]

theorem simple_ne_wrapped_fish (name cmd : List Char) :
    simpleAliasForm .fish name cmd ≠ wrappedFunctionForm .fish name cmd := by
  intro h
  have h1 : (simpleAliasForm .fish name cmd).head? = some 'a' := rfl
  rw [h] at h1
  have h2 : (wrappedFunctionForm .fish name cmd).head? = some 'f' := rfl
  rw [h2] at h1
  exact absurd h1 (by decide)

theorem simple_ne_wrapped_ps (name cmd : List Char) :
    simpleAliasForm .powershell name cmd ≠ wrappedFunctionForm .powershell name cmd := by
  intro h
  have h1 : (simpleAliasForm .powershell name cmd).head? = some 'S' := rfl
  rw [h] at h1
  have h2 : (wrappedFunctionForm .powershell name cmd).head? = some 'f' := rfl
  rw [h2] at h1
  exact absurd h1 (by decide)

theorem simple_ne_wrapped_pwsh (name cmd : List Char) :
    simpleAliasForm .powershellCore name cmd ≠
      wrappedFunctionForm .powershellCore name cmd := by
  intro h
  have h1 : (simpleAliasForm .powershellCore name cmd).head? = some 'S' := rfl
  rw [h] at h1
  have h2 : (wrappedFunctionForm .powershellCore name cmd).head? = some 'f' := rfl
  rw [h2] at h1
  exact absurd h1 (by decide)

/-- C1: the managed-block merge is not idempotent.  Starting from no file
with an empty store, the second ApplyAliases writes the first output plus one
extra newline: line 86 always writes the end-marker line, and lines 88-93
re-append everything after the end-marker string of the old content,
including the old newline, so a blank line accumulates on every apply.  This
evaluates the embedded code at the failing input. -/
theorem ApplyAliases_second_apply_appends_newline :
    ApplyAliases .bash [] (some (ApplyAliases .bash [] none)) =
      ApplyAliases .bash [] none ++ nl ∧
    ApplyAliases .bash [] (some (ApplyAliases .bash [] none)) ≠
      ApplyAliases .bash [] none := by
  decide

/-- C2 counterexample: on a file with both markers, the bytes after the end
marker in the output are not those of the input: they gain one leading
newline (while the bytes before the start marker are preserved exactly), so
the claim as stated is false at this input. -/
theorem ApplyAliases_suffix_not_preserved :
    ((splitN2 endMarker (ApplyAliases .bash []
        (some (startMarker ++ nl ++ endMarker ++ nl ++ "tail".toList ++ nl)))).2).getD [] ≠
      ((splitN2 endMarker
        (startMarker ++ nl ++ endMarker ++ nl ++ "tail".toList ++ nl)).2).getD [] ∧
    (splitN2 startMarker (ApplyAliases .bash []
        (some (startMarker ++ nl ++ endMarker ++ nl ++ "tail".toList ++ nl)))).1 =
      (splitN2 startMarker
        (startMarker ++ nl ++ endMarker ++ nl ++ "tail".toList ++ nl)).1 := by
  decide

/-- C2 witness: the block-replacement theorem applied at a concrete file with
prefix, stale interior and suffix. -/
theorem ApplyAliases_with_block_witness :
    ApplyAliases .bash []
      (some ("X\n".toList ++ startMarker ++ "\nold\n".toList ++ endMarker ++
        "\nY\n".toList)) =
      "X\n".toList ++ startMarker ++ nl ++ renderBody .bash [] ++ endMarker ++ nl ++
        "\nY\n".toList :=
  (ApplyAliases_with_block .bash []
    ("X\n".toList ++ startMarker ++ "\nold\n".toList ++ endMarker ++ "\nY\n".toList)
    "X\n".toList ("\nold\n".toList ++ endMarker ++ "\nY\n".toList)
    ("X\n".toList ++ startMarker ++ "\nold\n".toList) "\nY\n".toList
    (by decide) (by decide)).2.2

/-- C3 witness: the round trip applied to the bash alias ll = ls -la. -/
theorem renderAlias_import_roundTrip_witness :
    goodName "ll".toList ∧ goodCommand "ls -la".toList ∧
    importLines .bash [] (goLines (renderAlias .bash "ll".toList "ls -la".toList)) =
      [("ll".toList, setCommand .bash "ls -la".toList emptyAliasCommands)] :=
  ⟨by decide, by decide,
    renderAlias_import_roundTrip .bash "ll".toList "ls -la".toList
      (by decide) (by decide)⟩

/-- C4: the per-alias translation step of ExportAliases never invokes the AI
conversion capability and returns the command unchanged when the target shell
string equals the current shell's name, for every capability and
configuration. -/
theorem exportTranslate_same_shell (ai : Bool) (sh : ShellType)
    (convert : List Char → Option (List Char)) (cmd : List Char) :
    exportTranslateCommand ai (shellName sh) (shellName sh) convert cmd =
      (cmd, false) := by
  unfold exportTranslateCommand
  rw [if_neg]
  intro h
  exact h.2 rfl

/-- C5 counterexample: AddAlias with an empty command creates a record whose
command strings are all empty, and SaveAliases persists the store's records
without filtering, so the all-empty record is written. -/
theorem AddAlias_empty_command_persisted :
    persistedRecords (runOps [] [StoreOp.add .bash "x".toList []]) =
      [("x".toList, emptyAliasCommands)] ∧
    hasNonEmptyCommand emptyAliasCommands = false := by
  decide

/-- C5 amended: after every sequence of Add, Remove and import operations in
which every stored command is non-empty, every record persisted by
SaveAliases has a non-empty command for at least one dialect. -/
theorem persistedRecords_nonEmpty_of_opsOK (ops : List StoreOp)
    (h : opsOK ops = true) :
    storeInv (persistedRecords (runOps [] ops)) = true :=
  runOps_inv ops [] rfl h

/-- C5 witness: the amended invariant at a concrete operation sequence with
an add, an import of a POSIX alias line, and a remove. -/
theorem persistedRecords_nonEmpty_of_opsOK_witness :
    opsOK [StoreOp.add .bash "ll".toList "ls -la".toList,
      StoreOp.importFile .bash
        ["alias g=".toList ++ [singleQuote] ++ "git".toList ++ [singleQuote]],
      StoreOp.remove "zz".toList] = true ∧
    storeInv (persistedRecords (runOps []
      [StoreOp.add .bash "ll".toList "ls -la".toList,
       StoreOp.importFile .bash
         ["alias g=".toList ++ [singleQuote] ++ "git".toList ++ [singleQuote]],
       StoreOp.remove "zz".toList])) = true :=
  ⟨by decide, persistedRecords_nonEmpty_of_opsOK _ (by decide)⟩

/-- C6: loading the alias store when the persisted file does not exist
returns an empty store and no error, for every decoder. -/
theorem LoadAliases_missing_store (parseStore : List Char → Except Unit Store) :
    LoadAliases .notExist parseStore = Except.ok [] := rfl

/-- C7 counterexample: a bash alias definition line indented by two spaces
begins with the keyword after trimming leading whitespace, yet the importer
ignores it (the store stays empty); the same line unindented is imported.
The claim's trimming clause is therefore false on the code. -/
theorem importLines_ignores_indented_alias :
    importLines .bash []
      ["  alias ll=".toList ++ [singleQuote] ++ "ls -la".toList ++ [singleQuote]] = [] ∧
    startsWith "alias ".toList (trimLeftWhile goIsSpace
      ("  alias ll=".toList ++ [singleQuote] ++ "ls -la".toList ++ [singleQuote])) =
      true ∧
    importLines .bash []
      ["alias ll=".toList ++ [singleQuote] ++ "ls -la".toList ++ [singleQuote]] =
      [("ll".toList, setCommand .bash "ls -la".toList emptyAliasCommands)] := by
  decide

/-- C7 amended: a line that does not begin with one of the dialect's defining
keywords at position 0 (case-sensitive, no whitespace trimming) is ignored by
the import scanner: it changes nothing and raises no error. -/
theorem importLines_skip_keywordFree (sh : ShellType) (st : Store)
    (line : List Char) (rest : List (List Char))
    (h : ∀ k ∈ dialectKeywords sh, startsWith k line = false) :
    importLines sh st (line :: rest) = importLines sh st rest :=
  importLines_skip_nonKeyword sh st line rest h

/-- C7 witness: the indented bash line is keyword-free at position 0 and is
skipped. -/
theorem importLines_skip_keywordFree_witness :
    (∀ k ∈ dialectKeywords .bash,
      startsWith k "  alias ll=x".toList = false) ∧
    importLines .bash [] ["  alias ll=x".toList] = importLines .bash [] [] :=
  ⟨by decide, importLines_skip_keywordFree .bash [] "  alias ll=x".toList [] (by decide)⟩

/-- C8: for fish and both PowerShell dialects, the rendering is the
wrapped/function form exactly when the command contains a space character,
and the simple-alias form otherwise. -/
theorem renderAlias_space_selects_wrapped (name cmd : List Char) :
    ((renderAlias .fish name cmd = wrappedFunctionForm .fish name cmd) ↔
      cmd.contains ' ' = true) ∧
    (cmd.contains ' ' = false →
      renderAlias .fish name cmd = simpleAliasForm .fish name cmd) ∧
    ((renderAlias .powershell name cmd = wrappedFunctionForm .powershell name cmd) ↔
      cmd.contains ' ' = true) ∧
    (cmd.contains ' ' = false →
      renderAlias .powershell name cmd = simpleAliasForm .powershell name cmd) ∧
    ((renderAlias .powershellCore name cmd =
        wrappedFunctionForm .powershellCore name cmd) ↔
      cmd.contains ' ' = true) ∧
    (cmd.contains ' ' = false →
      renderAlias .powershellCore name cmd =
        simpleAliasForm .powershellCore name cmd) := by
  refine ⟨⟨?_, renderAlias_fish_space name cmd⟩, renderAlias_fish_nospace name cmd,
    ⟨?_, renderAlias_ps_space name cmd⟩, renderAlias_ps_nospace name cmd,
    ⟨?_, renderAlias_pwsh_space name cmd⟩, renderAlias_pwsh_nospace name cmd⟩
  · intro h
    cases hs : cmd.contains ' ' with
    | true => rfl
    | false =>
      rw [renderAlias_fish_nospace name cmd hs] at h
      exact absurd h (simple_ne_wrapped_fish name cmd)
  · intro h
    cases hs : cmd.contains ' ' with
    | true => rfl
    | false =>
      rw [renderAlias_ps_nospace name cmd hs] at h
      exact absurd h (simple_ne_wrapped_ps name cmd)
  · intro h
    cases hs : cmd.contains ' ' with
    | true => rfl
    | false =>
      rw [renderAlias_pwsh_nospace name cmd hs] at h
      exact absurd h (simple_ne_wrapped_pwsh name cmd)

/-- C8 witness: the heuristic at a concrete spaced command. -/
theorem renderAlias_space_selects_wrapped_witness :
    ((renderAlias .fish "g".toList "git status".toList =
        wrappedFunctionForm .fish "g".toList "git status".toList) ↔
      "git status".toList.contains ' ' = true) ∧
    ("git status".toList.contains ' ' = false →
      renderAlias .fish "g".toList "git status".toList =
        simpleAliasForm .fish "g".toList "git status".toList) ∧
    ((renderAlias .powershell "g".toList "git status".toList =
        wrappedFunctionForm .powershell "g".toList "git status".toList) ↔
      "git status".toList.contains ' ' = true) ∧
    ("git status".toList.contains ' ' = false →
      renderAlias .powershell "g".toList "git status".toList =
        simpleAliasForm .powershell "g".toList "git status".toList) ∧
    ((renderAlias .powershellCore "g".toList "git status".toList =
        wrappedFunctionForm .powershellCore "g".toList "git status".toList) ↔
      "git status".toList.contains ' ' = true) ∧
    ("git status".toList.contains ' ' = false →
      renderAlias .powershellCore "g".toList "git status".toList =
        simpleAliasForm .powershellCore "g".toList "git status".toList) :=
  renderAlias_space_selects_wrapped "g".toList "git status".toList

/-- C9 witness: the start-marker-only theorem applied at a concrete file
containing the start marker and trailing text but no end marker. -/
theorem ApplyAliases_marker_no_end_witness :
    ApplyAliases .bash []
      (some ("A\n".toList ++ startMarker ++ "\njunk\n".toList)) =
      "A\n".toList ++ startMarker ++ nl ++ renderBody .bash [] ++ endMarker ++ nl :=
  (ApplyAliases_marker_no_end .bash []
    ("A\n".toList ++ startMarker ++ "\njunk\n".toList)
    "A\n".toList "\njunk\n".toList (by decide) (by decide)).2

/-- C10: importing from a missing shell configuration file succeeds
immediately and leaves the store unchanged, before any parsing and before the
terminal save. -/
theorem ImportAliasesFromShell_missing_file (sh : ShellType) (st : Store) :
    ImportAliasesFromShell sh st .notExist = Except.ok st := rfl
